import Mathlib

/-!
Shallow embedding of the ADAgent_ANAC opponent-modeling core
(`src/agents/ada_agent/opponent_model.py` and
`src/agents/ada_agent/learning_model.py`).

Python floats are modelled as rationals (`ℚ`), Python `dict`s as
association lists with first-match lookup and in-place overwrite on
assignment, `None` as `Option.none`, and raised exceptions as
`Except.error` with an `ErrKind` naming the Python exception class.
-/

namespace ADAgent

/-- Kinds of Python exceptions the embedded code can raise. -/
inductive ErrKind where
  | keyError
  | valueError
  | zeroDivisionError
  | indexError
deriving DecidableEq, Repr

/-- `d.get(k)`-style lookup in an association list (first match wins,
like a Python dict, whose keys are unique). -/
def lookupA {α : Type} {β : Type} [DecidableEq α] : List (α × β) → α → Option β
  | [], _ => none
  | (k', v') :: rest, k => if k' = k then some v' else lookupA rest k

/-- `d[k] = v`-style update: overwrite the binding in place if the key is
present, append it otherwise (lazily created entries, as in a dict). -/
def setA {α : Type} {β : Type} [DecidableEq α] : List (α × β) → α → β → List (α × β)
  | [], k, v => [(k, v)]
  | (k', v') :: rest, k, v =>
      if k' = k then (k, v) :: rest else (k', v') :: setA rest k v

/-- Python `max(seq)`: `none` on the empty sequence (where Python raises
`ValueError`), otherwise the maximum. -/
def maxList : List ℚ → Option ℚ
  | [] => none
  | x :: xs => some (xs.foldl max x)

theorem lookupA_setA_self {α β : Type} [DecidableEq α]
    (l : List (α × β)) (k : α) (v : β) : lookupA (setA l k v) k = some v := by
  induction l with
  | nil => simp [setA, lookupA]
  | cons p rest ih =>
    obtain ⟨k', v'⟩ := p
    by_cases h : k' = k
    · simp [setA, h, lookupA]
    · simp [setA, h, lookupA, ih]

theorem lookupA_setA_ne {α β : Type} [DecidableEq α]
    (l : List (α × β)) (k k₂ : α) (v : β) (h : k₂ ≠ k) :
    lookupA (setA l k v) k₂ = lookupA l k₂ := by
  have h' : ¬ k = k₂ := fun hh => h hh.symm
  induction l with
  | nil => simp [setA, lookupA, h']
  | cons p rest ih =>
    obtain ⟨k', v'⟩ := p
    by_cases hk : k' = k
    · subst hk
      simp [setA, lookupA, h']
    · by_cases hk2 : k' = k₂
      · subst hk2
        simp [setA, hk, lookupA]
      · simp [setA, hk, lookupA, hk2, ih]

theorem foldl_max_init_le (l : List ℚ) : ∀ x : ℚ, x ≤ l.foldl max x := by
  induction l with
  | nil => intro x; exact le_refl x
  | cons y ys ih => intro x; exact le_trans (le_max_left x y) (ih (max x y))

theorem le_foldl_max_of_mem (l : List ℚ) :
    ∀ x y : ℚ, y ∈ l → y ≤ l.foldl max x := by
  induction l with
  | nil => intro x y h; cases h
  | cons z zs ih =>
    intro x y h
    rcases List.mem_cons.mp h with h1 | h2
    · subst h1
      exact le_trans (le_max_right x y) (foldl_max_init_le zs (max x y))
    · exact ih (max x z) y h2

theorem foldl_max_mem (l : List ℚ) :
    ∀ x : ℚ, l.foldl max x = x ∨ l.foldl max x ∈ l := by
  induction l with
  | nil => intro x; left; rfl
  | cons y ys ih =>
    intro x
    have hstep : (y :: ys).foldl max x = ys.foldl max (max x y) := rfl
    rcases ih (max x y) with h | h
    · rcases max_choice x y with hx | hy
      · left; rw [hstep, h, hx]
      · right; rw [hstep, h, hy]; exact List.mem_cons_self y ys
    · right; rw [hstep]; exact List.mem_cons_of_mem y h

/-- Characterisation of `maxList`: the result is attained and bounds the list. -/
theorem maxList_spec {l : List ℚ} {x : ℚ} (h : maxList l = some x) :
    x ∈ l ∧ ∀ y ∈ l, y ≤ x := by
  cases l with
  | nil => cases h
  | cons a as =>
    have hx : as.foldl max a = x := by
      simpa [maxList] using h
    constructor
    · rcases foldl_max_mem as a with h1 | h1
      · rw [← hx, h1]; exact List.mem_cons_self a as
      · rw [← hx]; exact List.mem_cons_of_mem a h1
    · intro y hy
      rcases List.mem_cons.mp hy with rfl | hmem
      · rw [← hx]; exact foldl_max_init_le as y
      · rw [← hx]; exact le_foldl_max_of_mem as a y hmem

theorem foldl_max_map_div (l : List ℚ) (c : ℚ) (hc : 0 < c) :
    ∀ x : ℚ, (l.map (fun y => y / c)).foldl max (x / c) = (l.foldl max x) / c := by
  induction l with
  | nil => intro x; rfl
  | cons y ys ih =>
    intro x
    have hstep : ((y :: ys).map (fun y => y / c)).foldl max (x / c)
        = (ys.map (fun y => y / c)).foldl max (max (x / c) (y / c)) := rfl
    rw [hstep, max_div_div_right hc.le x y, ih (max x y)]
    rfl

/-- `maxList` commutes with pointwise division by a positive constant. -/
theorem maxList_map_div (l : List ℚ) (c : ℚ) (hc : 0 < c) :
    maxList (l.map (fun y => y / c)) = (maxList l).map (fun y => y / c) := by
  cases l with
  | nil => rfl
  | cons a as =>
    show some ((as.map (fun y => y / c)).foldl max (a / c)) = some ((as.foldl max a) / c)
    rw [foldl_max_map_div as c hc a]

theorem sum_map_div (l : List ℚ) (c : ℚ) :
    (l.map (fun y => y / c)).sum = l.sum / c := by
  induction l with
  | nil => simp
  | cons a as ih => simp [ih, add_div]

theorem foldl_max_const (l : List ℚ) (c : ℚ) (h : ∀ y ∈ l, y = c) :
    l.foldl max c = c := by
  induction l with
  | nil => rfl
  | cons y ys ih =>
    have hy : y = c := h y (List.mem_cons_self y ys)
    have hstep : (y :: ys).foldl max c = ys.foldl max (max c y) := rfl
    rw [hstep, hy, max_self]
    exact ih (fun z hz => h z (List.mem_cons_of_mem y hz))

/-! ## Data model (`opponent_model.py`) -/

/-- A discrete issue value (GeniusWeb `Value`), opaque and comparable. -/
abbrev Value := String

/-- An issue name. -/
abbrev IssueName := String

/-- A GeniusWeb `Bid`: a mapping from issue name to value.
`getValue` on an unassigned issue yields `none` (Python `None`). -/
abbrev Bid := List (IssueName × Value)

/-- `bid.getValue(issue)`. -/
def getValue (b : Bid) (iss : IssueName) : Option Value := lookupA b iss

/-- A GeniusWeb `Domain`, reduced to what the code consumes: the issue
names in stable enumeration order, each with its discrete value set. -/
abbrev NegoDomain := List (IssueName × List Value)

/-- The Q-learning state: the `(price, quantity)` projection of a bid,
each component possibly `None` (`get_state_representation`). -/
abbrev QState := Option Value × Option Value

/-- A Q-table key `(state, action)`; the action is a value of the primary
issue, or `None`. -/
abbrev QKey := QState × Option Value

/-- The `Issue` class of `opponent_model.py`: an estimated issue weight
(class default `1.0`) and the per-value weight table. -/
structure Issue where
  weight : ℚ
  value_weights : List (Value × ℚ)
deriving DecidableEq, Repr

/-- The epsilon `0.0 + 1e-10` used to seed every value weight. -/
def epsWeight : ℚ := 1 / 10000000000

/-- `Issue.__init__(values)`: every declared value starts at epsilon. -/
def Issue.init (values : List Value) : Issue :=
  { weight := 1, value_weights := values.map (fun v => (v, epsWeight)) }

/-- `Issue.update(value)`: add 1.0 to the value's counter; no-op on `None`.
(Defined for completeness; no `OpponentModel` method invokes it.) -/
def Issue.updateValue (iss : Issue) (value : Option Value) : Issue :=
  match value with
  | none => iss
  | some v =>
    { iss with value_weights := setA iss.value_weights v ((lookupA iss.value_weights v).getD 0 + 1) }

/-- `Issue.get_utility(value)`: `0.0` on `None`; otherwise
`weight * value_weights[value]`, a `KeyError` when the value is absent. -/
def Issue.get_utility (iss : Issue) (value : Option Value) : Except ErrKind ℚ :=
  match value with
  | none => .ok 0
  | some v =>
    match lookupA iss.value_weights v with
    | none => .error .keyError
    | some w => .ok (iss.weight * w)

/-- The `OpponentModel` class state. -/
structure OpponentModel where
  domain : NegoDomain
  alpha : ℚ
  gamma : ℚ
  offers : List Bid
  issues : List (IssueName × Issue)
  q_table : List (QKey × ℚ)
deriving DecidableEq, Repr

/-- Q-table read with the `dict.get(key, 0.0)` default. -/
def qGet (t : List (QKey × ℚ)) (k : QKey) : ℚ := (lookupA t k).getD 0

/-- `OpponentModel.get_state_representation(bid)`: the
`(price, quantity)` value pair of the bid. -/
def get_state_representation (bid : Bid) : QState :=
  (getValue bid "price", getValue bid "quantity")

/-- `OpponentModel.q_learning_update`. Fails (`IndexError`) on an empty
domain and (`ValueError`) when the primary issue has no values, exactly
where Python's `list(...)[0]` and `max(...)` would raise. -/
def OpponentModel.q_learning_update (m : OpponentModel) (prev_bid curr_bid : Bid)
    (reward learning_rate discount_factor : ℚ) : Except ErrKind OpponentModel :=
  match m.domain with
  | [] => .error .indexError
  | (issue0, values) :: _ =>
    let prev_state := get_state_representation prev_bid
    let prev_action := getValue prev_bid issue0
    let curr_state := get_state_representation curr_bid
    let prev_q_value := qGet m.q_table (prev_state, prev_action)
    match maxList (values.map (fun a => qGet m.q_table (curr_state, some a))) with
    | none => .error .valueError
    | some max_q_value =>
      let new_q_value := (1 - learning_rate) * prev_q_value
          + learning_rate * (reward + discount_factor * max_q_value)
      .ok { m with q_table := setA m.q_table (prev_state, prev_action) new_q_value }

/-- `OpponentModel.update_issue_weights`, with the elapsed-time fraction
`t` (Python reads it from the external `progress` object) passed in. -/
def OpponentModel.update_issue_weights (m : OpponentModel) (t : ℚ) : OpponentModel :=
  if m.offers.length < 2 then m
  else
    match m.offers.reverse with
    | b1 :: b0 :: _ =>
      { m with issues := m.issues.map (fun p =>
          if getValue b0 p.1 = getValue b1 p.1 then
            (p.1, { p.2 with weight := p.2.weight + m.alpha * (1 - t * 3) })
          else p) }
    | _ => m

/-- `OpponentModel.update(prev_bid, curr_bid, reward, lr, df)`:
early return when either bid is `None`; otherwise append the current bid,
update the issue weights, and run the Q-learning update. -/
def OpponentModel.update (m : OpponentModel) (prev_bid curr_bid : Option Bid)
    (reward learning_rate discount_factor t : ℚ) : Except ErrKind OpponentModel :=
  match prev_bid, curr_bid with
  | some pb, some cb =>
    let m1 := { m with offers := m.offers ++ [cb] }
    let m2 := m1.update_issue_weights t
    m2.q_learning_update pb cb reward learning_rate discount_factor
  | _, _ => .ok m

/-- The per-issue accumulation step of `OpponentModel.get_utility`. -/
def getUtilityAux (b : Bid) : List (IssueName × Issue) → Except ErrKind ℚ
  | [] => .ok 0
  | p :: rest =>
    match p.2.get_utility (getValue b p.1) with
    | .error e => .error e
    | .ok u =>
      match getUtilityAux b rest with
      | .error e => .error e
      | .ok r => .ok (u + r)

/-- `OpponentModel.get_utility(bid)`: `0.0` on `None`, otherwise the sum
of per-issue utilities. Pure: it returns a value and touches no state. -/
def OpponentModel.get_utility (m : OpponentModel) (bid : Option Bid) : Except ErrKind ℚ :=
  match bid with
  | none => .ok 0
  | some b => getUtilityAux b m.issues

/-- The maximum value weight of an issue (`max(issue.value_weights.values())`). -/
def maxValWeight (iss : Issue) : Option ℚ := maxList (iss.value_weights.map Prod.snd)

/-- The first-pass body of `OpponentModel.normalize` on one issue: divide
each value weight by the issue's current maximum value weight.
`ValueError` on an empty table, `ZeroDivisionError` on a zero maximum. -/
def Issue.scaleValues (iss : Issue) : Except ErrKind Issue :=
  match maxValWeight iss with
  | none => .error .valueError
  | some mv =>
    if mv = 0 then .error .zeroDivisionError
    else .ok { iss with value_weights := iss.value_weights.map (fun q => (q.1, q.2 / mv)) }

/-- The first pass of `OpponentModel.normalize` over all issues. -/
def scaleAllIssues : List (IssueName × Issue) → Except ErrKind (List (IssueName × Issue))
  | [] => .ok []
  | p :: rest =>
    match Issue.scaleValues p.2 with
    | .error e => .error e
    | .ok iss2 =>
      match scaleAllIssues rest with
      | .error e => .error e
      | .ok rest2 => .ok ((p.1, iss2) :: rest2)

/-- The issue-weight total accumulated during the first pass (weights are
untouched by that pass, so it is the sum of the incoming weights). -/
def totalWeight (issues : List (IssueName × Issue)) : ℚ :=
  (issues.map (fun p => p.2.weight)).sum

/-- `OpponentModel.normalize`: scale value weights per issue, then divide
every issue weight by the accumulated total. With no issues both loops
are empty and nothing is divided; with issues and a zero total the second
pass raises `ZeroDivisionError`. -/
def OpponentModel.normalize (m : OpponentModel) : Except ErrKind OpponentModel :=
  match scaleAllIssues m.issues with
  | .error e => .error e
  | .ok issues1 =>
    if m.issues.isEmpty then .ok { m with issues := issues1 }
    else if totalWeight m.issues = 0 then .error .zeroDivisionError
    else .ok { m with issues := issues1.map (fun p =>
        (p.1, { p.2 with weight := p.2.weight / totalWeight m.issues })) }

/-- `OpponentModel.__init__`: build one epsilon-seeded `Issue` per domain
issue (each with the class-default weight `1.0`), empty offer log and
Q-table, then `normalize()`. -/
def OpponentModel.init (domain : NegoDomain) (alpha gamma : ℚ) :
    Except ErrKind OpponentModel :=
  OpponentModel.normalize
    { domain := domain, alpha := alpha, gamma := gamma, offers := [],
      issues := domain.map (fun p => (p.1, Issue.init p.2)), q_table := [] }

/-! ## Data model (`learning_model.py`) -/

/-- The opaque `LearnedData` mapping held in `LearningModel.data`.
Pickle (de)serialization is modelled as the identity on the mapping. -/
abbrev LearnedData := List (String × String)

/-- The file system visible to the persistence layer: a mapping from file
path to the deserialized contents of the snapshot stored there. -/
abbrev FileSystem := List (String × LearnedData)

/-- The `LearningModel` class state. -/
structure LearningModel where
  received_bids : List Bid
  my_bids : List Bid
  data : LearnedData
deriving DecidableEq, Repr

/-- The deterministic per-opponent snapshot path
`f"{storage_dir}/{opponent_agent}_data.pkl"`. -/
def dataFile (storage_dir opponent_agent : String) : String :=
  storage_dir ++ "/" ++ opponent_agent ++ "_data.pkl"

/-- `LearningModel.save_data`: early return when either key is `None`,
otherwise write the data under the deterministic path. -/
def LearningModel.save_data (lm : LearningModel)
    (storage_dir opponent_agent : Option String) (fs : FileSystem) : FileSystem :=
  match storage_dir, opponent_agent with
  | some sd, some oa => setA fs (dataFile sd oa) lm.data
  | _, _ => fs

/-- `LearningModel.load_data`: reset `data` to empty; when both keys are
present and the snapshot file exists, load it. Returns the new model
state together with the returned mapping. -/
def LearningModel.load_data (lm : LearningModel)
    (storage_dir opponent_agent : Option String) (fs : FileSystem) :
    LearningModel × LearnedData :=
  let lm0 := { lm with data := [] }
  match storage_dir, opponent_agent with
  | some sd, some oa =>
    match lookupA fs (dataFile sd oa) with
    | some d => ({ lm0 with data := d }, d)
    | none => (lm0, [])
  | _, _ => (lm0, [])

/-! ## Helper lemmas on the model -/

theorem qGet_setA_self (t : List (QKey × ℚ)) (k : QKey) (v : ℚ) :
    qGet (setA t k v) k = v := by
  simp [qGet, lookupA_setA_self]

theorem qGet_setA_ne (t : List (QKey × ℚ)) (k k₂ : QKey) (v : ℚ) (h : k₂ ≠ k) :
    qGet (setA t k v) k₂ = qGet t k₂ := by
  simp [qGet, lookupA_setA_ne t k k₂ v h]

/-- Unfolding of `q_learning_update` when the domain's primary issue has
at least one declared value. -/
theorem q_learning_update_eq (m : OpponentModel) (prev_bid curr_bid : Bid)
    (reward lr df : ℚ) (issue0 : IssueName) (values : List Value)
    (rest : NegoDomain) (hdom : m.domain = (issue0, values) :: rest)
    (hval : values ≠ []) :
    ∃ maxq,
      maxList (values.map (fun a =>
        qGet m.q_table (get_state_representation curr_bid, some a))) = some maxq ∧
      m.q_learning_update prev_bid curr_bid reward lr df =
        .ok { m with q_table := (setA m.q_table
          (get_state_representation prev_bid, getValue prev_bid issue0)
          ((1 - lr) * qGet m.q_table
              (get_state_representation prev_bid, getValue prev_bid issue0)
            + lr * (reward + df * maxq))) } := by
  obtain ⟨v, vs, rfl⟩ := List.exists_cons_of_ne_nil hval
  refine ⟨((v :: vs).map (fun a =>
      qGet m.q_table (get_state_representation curr_bid, some a))).tail.foldl max
      (qGet m.q_table (get_state_representation curr_bid, some v)), rfl, ?_⟩
  unfold OpponentModel.q_learning_update
  rw [hdom]
  rfl

/-- The issue list produced by a successful `scaleAllIssues` pass:
each issue's value weights divided by that issue's maximum value weight. -/
theorem scaleAllIssues_ok (issues : List (IssueName × Issue))
    (h : ∀ p ∈ issues, ∃ mv, maxValWeight p.2 = some mv ∧ mv ≠ 0) :
    scaleAllIssues issues = .ok (issues.map (fun p => (p.1,
      { p.2 with value_weights := (p.2.value_weights.map
          (fun q => (q.1, q.2 / (maxValWeight p.2).getD 0))) }))) := by
  induction issues with
  | nil => rfl
  | cons p rest ih =>
    obtain ⟨mv, hmv, hne⟩ := h p (List.mem_cons_self p rest)
    have hrest := ih (fun q hq => h q (List.mem_cons_of_mem p hq))
    simp [scaleAllIssues, Issue.scaleValues, hmv, hne, hrest]

/-- Unfolding of a successful `normalize` run: every issue's value
weights are divided by that issue's incoming maximum value weight, and
every issue weight by the incoming issue-weight total. -/
theorem normalize_ok (m : OpponentModel)
    (hne : m.issues ≠ [])
    (hmax : ∀ p ∈ m.issues, ∃ mv, maxValWeight p.2 = some mv ∧ mv ≠ 0)
    (htot : totalWeight m.issues ≠ 0) :
    m.normalize = .ok { m with issues := (m.issues.map (fun p => (p.1,
      { weight := p.2.weight / totalWeight m.issues,
        value_weights := (p.2.value_weights.map
          (fun q => (q.1, q.2 / (maxValWeight p.2).getD 0))) }))) } := by
  unfold OpponentModel.normalize
  rw [scaleAllIssues_ok m.issues hmax]
  have h1 : m.issues.isEmpty = false := by
    obtain ⟨p0, ps, hI⟩ := List.exists_cons_of_ne_nil hne
    rw [hI]; rfl
  simp [h1, htot, List.map_map]

/-! ## Concrete sample data for witnesses -/

/-- The spec §8 scenario domain: `{price: [10,20,30], quantity: [1,2,3]}`. -/
def sampleDomain : NegoDomain :=
  [("price", ["10", "20", "30"]), ("quantity", ["1", "2", "3"])]

/-- The bid `{price: 20, quantity: 2}`. -/
def sampleBidA : Bid := [("price", "20"), ("quantity", "2")]

/-- A model over `sampleDomain` with one prior Q-table entry at the key
the update writes, so the blended update is visible. -/
def sampleModelQ : OpponentModel :=
  { domain := sampleDomain, alpha := 1 / 10, gamma := 9 / 10, offers := [],
    issues := [], q_table := [(((some "20", some "2"), some "20"), 2)] }

/-! ## Claim theorems -/

/-- Claim C1: for every prior Q-table and pair of (non-null) bids,
`q_learning_update` sets the single entry at
`((price, quantity) of prev_bid, prev_bid's primary-issue value)` to
`(1 - lr) * old + lr * (reward + df * max over the full primary value set
of Q[curr_state, a])`, reading absent entries as `0.0` (`qGet`), and
changes no other entry and no other model field. -/
theorem q_learning_update_sets_entry (m : OpponentModel) (prev_bid curr_bid : Bid)
    (reward lr df : ℚ) (issue0 : IssueName) (values : List Value) (rest : NegoDomain)
    (hdom : m.domain = (issue0, values) :: rest) (hval : values ≠ []) :
    ∃ m' maxq,
      m.q_learning_update prev_bid curr_bid reward lr df = .ok m' ∧
      (∃ a ∈ values, qGet m.q_table (get_state_representation curr_bid, some a) = maxq) ∧
      (∀ a ∈ values, qGet m.q_table (get_state_representation curr_bid, some a) ≤ maxq) ∧
      qGet m'.q_table (get_state_representation prev_bid, getValue prev_bid issue0)
        = (1 - lr) * qGet m.q_table (get_state_representation prev_bid, getValue prev_bid issue0)
          + lr * (reward + df * maxq) ∧
      (∀ k : QKey, k ≠ (get_state_representation prev_bid, getValue prev_bid issue0) →
        qGet m'.q_table k = qGet m.q_table k) ∧
      m'.domain = m.domain ∧ m'.offers = m.offers ∧ m'.issues = m.issues ∧
      m'.alpha = m.alpha ∧ m'.gamma = m.gamma := by
  obtain ⟨maxq, hmaxl, heq⟩ :=
    q_learning_update_eq m prev_bid curr_bid reward lr df issue0 values rest hdom hval
  obtain ⟨hmem, hub⟩ := maxList_spec hmaxl
  obtain ⟨a, ha, hfa⟩ := List.mem_map.mp hmem
  refine ⟨_, maxq, heq, ⟨a, ha, hfa⟩, ?_, ?_, ?_, rfl, rfl, rfl, rfl, rfl⟩
  · intro b hb
    exact hub _ (List.mem_map_of_mem _ hb)
  · exact qGet_setA_self _ _ _
  · intro k hk
    exact qGet_setA_ne _ _ _ _ hk

/-- Witness for C1 at the spec §8 scenario domain with a prior entry
of 2 at the written key, `reward = 1`, `lr = 1/2`, `df = 9/10`. -/
theorem q_learning_update_sets_entry_witness :
    sampleModelQ.domain = ("price", ["10", "20", "30"]) :: [("quantity", ["1", "2", "3"])] ∧
    (["10", "20", "30"] : List Value) ≠ [] ∧
    (∃ m' maxq,
      sampleModelQ.q_learning_update sampleBidA sampleBidA 1 (1 / 2) (9 / 10) = .ok m' ∧
      (∃ a ∈ (["10", "20", "30"] : List Value),
        qGet sampleModelQ.q_table (get_state_representation sampleBidA, some a) = maxq) ∧
      (∀ a ∈ (["10", "20", "30"] : List Value),
        qGet sampleModelQ.q_table (get_state_representation sampleBidA, some a) ≤ maxq) ∧
      qGet m'.q_table (get_state_representation sampleBidA, getValue sampleBidA "price")
        = (1 - 1 / 2) * qGet sampleModelQ.q_table
            (get_state_representation sampleBidA, getValue sampleBidA "price")
          + 1 / 2 * (1 + 9 / 10 * maxq) ∧
      (∀ k : QKey, k ≠ (get_state_representation sampleBidA, getValue sampleBidA "price") →
        qGet m'.q_table k = qGet sampleModelQ.q_table k) ∧
      m'.domain = sampleModelQ.domain ∧ m'.offers = sampleModelQ.offers ∧
      m'.issues = sampleModelQ.issues ∧ m'.alpha = sampleModelQ.alpha ∧
      m'.gamma = sampleModelQ.gamma) :=
  ⟨rfl, by decide,
    q_learning_update_sets_entry sampleModelQ sampleBidA sampleBidA 1 (1 / 2) (9 / 10)
      "price" ["10", "20", "30"] [("quantity", ["1", "2", "3"])] rfl (by decide)⟩

/-- Claim C5: with `learning_rate = 1` the updated entry is exactly
`reward + discount_factor * max over the full primary value set of
Q[curr_state, a]`, with no trace of the prior entry value. -/
theorem q_learning_update_lr_one_overwrites (m : OpponentModel) (prev_bid curr_bid : Bid)
    (reward df : ℚ) (issue0 : IssueName) (values : List Value) (rest : NegoDomain)
    (hdom : m.domain = (issue0, values) :: rest) (hval : values ≠ []) :
    ∃ m' maxq,
      m.q_learning_update prev_bid curr_bid reward 1 df = .ok m' ∧
      (∃ a ∈ values, qGet m.q_table (get_state_representation curr_bid, some a) = maxq) ∧
      (∀ a ∈ values, qGet m.q_table (get_state_representation curr_bid, some a) ≤ maxq) ∧
      qGet m'.q_table (get_state_representation prev_bid, getValue prev_bid issue0)
        = reward + df * maxq := by
  obtain ⟨maxq, hmaxl, heq⟩ :=
    q_learning_update_eq m prev_bid curr_bid reward 1 df issue0 values rest hdom hval
  obtain ⟨hmem, hub⟩ := maxList_spec hmaxl
  obtain ⟨a, ha, hfa⟩ := List.mem_map.mp hmem
  refine ⟨_, maxq, heq, ⟨a, ha, hfa⟩, fun b hb => hub _ (List.mem_map_of_mem _ hb), ?_⟩
  show qGet (setA m.q_table (get_state_representation prev_bid, getValue prev_bid issue0)
      ((1 - 1) * qGet m.q_table (get_state_representation prev_bid, getValue prev_bid issue0)
        + 1 * (reward + df * maxq)))
    (get_state_representation prev_bid, getValue prev_bid issue0) = reward + df * maxq
  rw [qGet_setA_self]
  ring

/-- Witness for C5 at the spec §8 scenario domain: the prior entry value
`2` is discarded and the result is `1 + 9/10 * maxq`. -/
theorem q_learning_update_lr_one_overwrites_witness :
    sampleModelQ.domain = ("price", ["10", "20", "30"]) :: [("quantity", ["1", "2", "3"])] ∧
    (["10", "20", "30"] : List Value) ≠ [] ∧
    (∃ m' maxq,
      sampleModelQ.q_learning_update sampleBidA sampleBidA 1 1 (9 / 10) = .ok m' ∧
      (∃ a ∈ (["10", "20", "30"] : List Value),
        qGet sampleModelQ.q_table (get_state_representation sampleBidA, some a) = maxq) ∧
      (∀ a ∈ (["10", "20", "30"] : List Value),
        qGet sampleModelQ.q_table (get_state_representation sampleBidA, some a) ≤ maxq) ∧
      qGet m'.q_table (get_state_representation sampleBidA, getValue sampleBidA "price")
        = 1 + 9 / 10 * maxq) :=
  ⟨rfl, by decide,
    q_learning_update_lr_one_overwrites sampleModelQ sampleBidA sampleBidA 1 (9 / 10)
      "price" ["10", "20", "30"] [("quantity", ["1", "2", "3"])] rfl (by decide)⟩

theorem totalWeight_map (l : List (IssueName × Issue)) (f : IssueName × Issue → Issue) :
    totalWeight (l.map (fun p => (p.1, f p))) = (l.map (fun p => (f p).weight)).sum := by
  unfold totalWeight
  rw [List.map_map]
  rfl

theorem sum_map_div_fn {α : Type} (l : List α) (g : α → ℚ) (c : ℚ) :
    (l.map (fun x => g x / c)).sum = (l.map g).sum / c := by
  induction l with
  | nil => simp
  | cons a as ih => simp [ih, add_div]

/-- Dividing an issue's value weights by their (positive) maximum makes
the new maximum exactly 1. -/
theorem maxValWeight_scale (iss : Issue) (mv : ℚ)
    (hmv : maxValWeight iss = some mv) (hpos : 0 < mv) (w : ℚ) :
    maxValWeight
      { weight := w,
        value_weights := (iss.value_weights.map (fun q => (q.1, q.2 / mv))) } = some 1 := by
  have h2 : (iss.value_weights.map Prod.snd).map (fun y => y / mv)
      = (iss.value_weights.map (fun q => (q.1, q.2 / mv))).map Prod.snd := by
    rw [List.map_map, List.map_map]
    rfl
  unfold maxValWeight at hmv ⊢
  rw [← h2, maxList_map_div _ _ hpos, hmv]
  show some (mv / mv) = some 1
  rw [div_self (ne_of_gt hpos)]

/-- A concrete state whose single issue carries only negative value
weights: reachable for no run of the code, but a legal state of the issue
records on which the literal claim fails. -/
def normalizeCex : OpponentModel :=
  { domain := [("i", ["a", "b"])], alpha := 1 / 10, gamma := 9 / 10, offers := [],
    issues := [("i", { weight := 1, value_weights := [("a", -2), ("b", -1)] })],
    q_table := [] }

/-- Claim C2, counterexample to the literal statement: on the state
`normalizeCex` (one issue, value weights `a ↦ -2`, `b ↦ -1`),
`normalize()` completes, the issue-weight sum is 1, but the issue's
maximum value weight afterwards is 2, not 1 (dividing by the negative
maximum `-1` flips the order of the value weights). -/
theorem normalize_unit_max_counterexample :
    (OpponentModel.normalize normalizeCex).map
      (fun m2 => m2.issues.map (fun p => maxValWeight p.2)) = .ok [some 2] ∧
    some (2 : ℚ) ≠ some 1 := by
  have hmaxval : maxValWeight
      { weight := (1 : ℚ), value_weights := [("a", (-2 : ℚ)), ("b", -1)] } = some (-1) := by
    show some (max (-2 : ℚ) (-1)) = some (-1)
    norm_num
  have hmax : ∀ p ∈ normalizeCex.issues, ∃ mv, maxValWeight p.2 = some mv ∧ mv ≠ 0 := by
    intro p hp
    simp only [normalizeCex, List.mem_singleton] at hp
    subst hp
    exact ⟨-1, hmaxval, by norm_num⟩
  have htot : totalWeight normalizeCex.issues ≠ 0 := by
    norm_num [totalWeight, normalizeCex]
  have hne : normalizeCex.issues ≠ [] := by simp [normalizeCex]
  refine ⟨?_, by norm_num⟩
  rw [normalize_ok normalizeCex hne hmax htot]
  norm_num [Except.map, normalizeCex, maxValWeight, maxList, totalWeight]

/-- Claim C2 (amended): for every state of the issue records with at
least one issue, in which every issue's maximum value weight is positive
and the issue weights do not sum to zero, `normalize()` succeeds; it
divides each issue's value weights by that issue's incoming maximum value
weight and each issue's weight by the incoming issue-weight total, after
which the issue weights sum to exactly 1 and every issue's maximum value
weight is exactly 1. -/
theorem normalize_spec (m : OpponentModel)
    (hne : m.issues ≠ [])
    (hpos : ∀ p ∈ m.issues, ∃ mv, maxValWeight p.2 = some mv ∧ 0 < mv)
    (htot : totalWeight m.issues ≠ 0) :
    ∃ m', m.normalize = .ok m' ∧
      m'.issues = (m.issues.map (fun p => (p.1,
        { weight := p.2.weight / totalWeight m.issues,
          value_weights := (p.2.value_weights.map
            (fun q => (q.1, q.2 / (maxValWeight p.2).getD 0))) }))) ∧
      m'.domain = m.domain ∧ m'.offers = m.offers ∧ m'.q_table = m.q_table ∧
      totalWeight m'.issues = 1 ∧
      (∀ p ∈ m'.issues, maxValWeight p.2 = some 1) := by
  have hmax : ∀ p ∈ m.issues, ∃ mv, maxValWeight p.2 = some mv ∧ mv ≠ 0 := by
    intro p hp
    obtain ⟨mv, h1, h2⟩ := hpos p hp
    exact ⟨mv, h1, ne_of_gt h2⟩
  refine ⟨_, normalize_ok m hne hmax htot, rfl, rfl, rfl, rfl, ?_, ?_⟩
  · show totalWeight (m.issues.map (fun p => (p.1,
      { weight := p.2.weight / totalWeight m.issues,
        value_weights := (p.2.value_weights.map
          (fun q => (q.1, q.2 / (maxValWeight p.2).getD 0))) }))) = 1
    rw [totalWeight_map]
    show (m.issues.map (fun p => p.2.weight / totalWeight m.issues)).sum = 1
    rw [sum_map_div_fn]
    exact div_self htot
  · intro p' hp'
    rw [List.mem_map] at hp'
    obtain ⟨p, hp, rfl⟩ := hp'
    obtain ⟨mv, hmv, hmvpos⟩ := hpos p hp
    show maxValWeight
      { weight := p.2.weight / totalWeight m.issues,
        value_weights := (p.2.value_weights.map
          (fun q => (q.1, q.2 / (maxValWeight p.2).getD 0))) } = some 1
    rw [hmv]
    exact maxValWeight_scale p.2 mv hmv hmvpos _

/-- A concrete state over the spec §8 scenario domain with strictly
positive value weights, used to witness the amended C2. -/
def sampleModelN : OpponentModel :=
  { domain := sampleDomain, alpha := 1 / 10, gamma := 9 / 10, offers := [],
    issues := [("price", { weight := 3, value_weights := [("10", 1), ("20", 4)] }),
               ("quantity", { weight := 1, value_weights := [("1", 2)] })],
    q_table := [] }

/-- Witness for the amended C2 at `sampleModelN`. -/
theorem normalize_spec_witness :
    sampleModelN.issues ≠ [] ∧
    (∀ p ∈ sampleModelN.issues, ∃ mv, maxValWeight p.2 = some mv ∧ 0 < mv) ∧
    totalWeight sampleModelN.issues ≠ 0 ∧
    (∃ m', sampleModelN.normalize = .ok m' ∧
      m'.issues = (sampleModelN.issues.map (fun p => (p.1,
        { weight := p.2.weight / totalWeight sampleModelN.issues,
          value_weights := (p.2.value_weights.map
            (fun q => (q.1, q.2 / (maxValWeight p.2).getD 0))) }))) ∧
      m'.domain = sampleModelN.domain ∧ m'.offers = sampleModelN.offers ∧
      m'.q_table = sampleModelN.q_table ∧
      totalWeight m'.issues = 1 ∧
      (∀ p ∈ m'.issues, maxValWeight p.2 = some 1)) := by
  have hpos : ∀ p ∈ sampleModelN.issues, ∃ mv, maxValWeight p.2 = some mv ∧ 0 < mv := by
    intro p hp
    simp only [sampleModelN, List.mem_cons, List.not_mem_nil, or_false] at hp
    rcases hp with rfl | rfl
    · exact ⟨max 1 4, rfl, by norm_num⟩
    · exact ⟨2, rfl, by norm_num⟩
  have hne : sampleModelN.issues ≠ [] := by simp [sampleModelN]
  have htot : totalWeight sampleModelN.issues ≠ 0 := by
    norm_num [totalWeight, sampleModelN]
  exact ⟨hne, hpos, htot, normalize_spec sampleModelN hne hpos htot⟩

/-- Claim C3: with at least two logged offers, `update_issue_weights`
adds `alpha * (1 - 3t)` to the weight of exactly the issues on which the
last two logged offers carry the same value, leaves every other issue
weight, every value weight and every other model field unchanged; with
fewer than two offers it is a no-op. -/
theorem update_issue_weights_spec (m : OpponentModel) (t : ℚ) :
    (m.offers.length < 2 → m.update_issue_weights t = m) ∧
    (∀ l b0 b1, m.offers = l ++ [b0, b1] →
      (m.update_issue_weights t).issues = (m.issues.map (fun p =>
        if getValue b0 p.1 = getValue b1 p.1 then
          (p.1, { p.2 with weight := p.2.weight + m.alpha * (1 - t * 3) })
        else p)) ∧
      (m.update_issue_weights t).offers = m.offers ∧
      (m.update_issue_weights t).domain = m.domain ∧
      (m.update_issue_weights t).alpha = m.alpha ∧
      (m.update_issue_weights t).gamma = m.gamma ∧
      (m.update_issue_weights t).q_table = m.q_table) := by
  constructor
  · intro h
    unfold OpponentModel.update_issue_weights
    rw [if_pos h]
  · intro l b0 b1 hoff
    unfold OpponentModel.update_issue_weights
    rw [hoff]
    have h2 : ¬ (l ++ [b0, b1]).length < 2 := by
      rw [List.length_append, List.length_cons, List.length_cons, List.length_nil]
      omega
    have hrev : (l ++ [b0, b1]).reverse = b1 :: b0 :: l.reverse := by
      simp
    rw [if_neg h2, hrev]
    exact ⟨rfl, rfl, rfl, rfl, rfl, rfl⟩

/-- A model over the spec §8 scenario: two identical logged offers
`{price: 20, quantity: 2}`, `alpha = 0.1`, all value weights 1. -/
def sampleModelW : OpponentModel :=
  { domain := sampleDomain, alpha := 1 / 10, gamma := 9 / 10,
    offers := [sampleBidA, sampleBidA],
    issues := [("price", { weight := 1, value_weights := [("10", 1), ("20", 1), ("30", 1)] }),
               ("quantity", { weight := 1, value_weights := [("1", 1), ("2", 1), ("3", 1)] })],
    q_table := [] }

/-- Witness for C3 at the spec §8 scenario with `t = 1/10`. -/
theorem update_issue_weights_spec_witness :
    sampleModelW.offers = [] ++ [sampleBidA, sampleBidA] ∧
    ((sampleModelW.update_issue_weights (1 / 10)).issues = (sampleModelW.issues.map (fun p =>
        if getValue sampleBidA p.1 = getValue sampleBidA p.1 then
          (p.1, { p.2 with weight := p.2.weight + sampleModelW.alpha * (1 - (1 / 10) * 3) })
        else p)) ∧
      (sampleModelW.update_issue_weights (1 / 10)).offers = sampleModelW.offers ∧
      (sampleModelW.update_issue_weights (1 / 10)).domain = sampleModelW.domain ∧
      (sampleModelW.update_issue_weights (1 / 10)).alpha = sampleModelW.alpha ∧
      (sampleModelW.update_issue_weights (1 / 10)).gamma = sampleModelW.gamma ∧
      (sampleModelW.update_issue_weights (1 / 10)).q_table = sampleModelW.q_table) :=
  ⟨rfl, (update_issue_weights_spec sampleModelW (1 / 10)).2 [] sampleBidA sampleBidA rfl⟩

/-- The value weight a bid reads on one issue, with the 0 default used
only to phrase the sum (the hypotheses of `get_utility_spec` pin the
lookup to succeed, so the default is never taken there). -/
def weightOf (iss : Issue) (v : Option Value) : ℚ :=
  match v with
  | none => 0
  | some vv => (lookupA iss.value_weights vv).getD 0

theorem getUtilityAux_ok (b : Bid) (issues : List (IssueName × Issue))
    (h : ∀ p ∈ issues, ∃ v w, getValue b p.1 = some v ∧ lookupA p.2.value_weights v = some w) :
    getUtilityAux b issues = .ok ((issues.map (fun p =>
      p.2.weight * weightOf p.2 (getValue b p.1))).sum) := by
  induction issues with
  | nil => rfl
  | cons p rest ih =>
    obtain ⟨v, w, hv, hw⟩ := h p (List.mem_cons_self p rest)
    have hrest := ih (fun q hq => h q (List.mem_cons_of_mem p hq))
    simp [getUtilityAux, Issue.get_utility, hv, hw, hrest, weightOf]

/-- Claim C4: `get_utility(None)` is exactly `0.0`, and on a bid that
assigns to every issue a value present in that issue's value-weights
table, `get_utility` returns the sum over issues of
`weight * value_weights[value]`. (The embedding is a pure function: the
model state is an argument and is not returned, so no state changes.) -/
theorem get_utility_spec (m : OpponentModel) (b : Bid)
    (h : ∀ p ∈ m.issues, ∃ v w, getValue b p.1 = some v ∧ lookupA p.2.value_weights v = some w) :
    m.get_utility none = .ok 0 ∧
    m.get_utility (some b) = .ok ((m.issues.map (fun p =>
      p.2.weight * weightOf p.2 (getValue b p.1))).sum) :=
  ⟨rfl, getUtilityAux_ok b m.issues h⟩

/-- Witness for C4 at `sampleModelW` and the bid `{price:20, quantity:2}`. -/
theorem get_utility_spec_witness :
    (∀ p ∈ sampleModelW.issues, ∃ v w, getValue sampleBidA p.1 = some v ∧
      lookupA p.2.value_weights v = some w) ∧
    sampleModelW.get_utility none = .ok 0 ∧
    sampleModelW.get_utility (some sampleBidA) = .ok ((sampleModelW.issues.map (fun p =>
      p.2.weight * weightOf p.2 (getValue sampleBidA p.1))).sum) := by
  have h : ∀ p ∈ sampleModelW.issues, ∃ v w, getValue sampleBidA p.1 = some v ∧
      lookupA p.2.value_weights v = some w := by
    intro p hp
    simp only [sampleModelW, List.mem_cons, List.not_mem_nil, or_false] at hp
    rcases hp with rfl | rfl
    · exact ⟨"20", 1, rfl, rfl⟩
    · exact ⟨"2", 1, rfl, rfl⟩
  exact ⟨h, get_utility_spec sampleModelW sampleBidA h⟩

/-- Claim C10: `update` with a null previous or current bid returns with
the model unchanged — nothing is appended to the offer log and no issue
weight, value weight or Q-table entry changes. -/
theorem update_null_bid_noop (m : OpponentModel) (prev_bid curr_bid : Option Bid)
    (reward lr df t : ℚ) :
    m.update none curr_bid reward lr df t = .ok m ∧
    m.update prev_bid none reward lr df t = .ok m := by
  constructor
  · cases curr_bid <;> rfl
  · cases prev_bid <;> rfl

/-- Claim C6: `save_data` then `load_data` with the same non-null
`(storage_dir, opponent_id)` pair returns the mapping that was saved,
through the deterministically named snapshot file. -/
theorem save_load_roundtrip (lm lm2 : LearningModel)
    (storage_dir opponent_agent : String) (fs : FileSystem) :
    (lm2.load_data (some storage_dir) (some opponent_agent)
      (lm.save_data (some storage_dir) (some opponent_agent) fs)).2 = lm.data := by
  simp [LearningModel.load_data, LearningModel.save_data, lookupA_setA_self]

/-- Claim C7: with a null storage dir or opponent identity, `save_data`
writes nothing; `load_data` with a null key, or with no snapshot on file
for the pair, resets the learned data to empty and returns an empty
mapping. All cases return normally (totally) — nothing is raised. -/
theorem persistence_missing_spec (lm : LearningModel) (fs : FileSystem)
    (storage_dir opponent_agent : String)
    (h : lookupA fs (dataFile storage_dir opponent_agent) = none) :
    lm.save_data none (some opponent_agent) fs = fs ∧
    lm.save_data (some storage_dir) none fs = fs ∧
    lm.save_data none none fs = fs ∧
    lm.load_data none (some opponent_agent) fs = ({ lm with data := [] }, []) ∧
    lm.load_data (some storage_dir) none fs = ({ lm with data := [] }, []) ∧
    lm.load_data none none fs = ({ lm with data := [] }, []) ∧
    lm.load_data (some storage_dir) (some opponent_agent) fs = ({ lm with data := [] }, []) := by
  refine ⟨rfl, rfl, rfl, rfl, rfl, rfl, ?_⟩
  simp [LearningModel.load_data, h]

/-- A learning model holding some session facts. -/
def sampleLM : LearningModel :=
  { received_bids := [], my_bids := [], data := [("accepted", "yes")] }

/-- Witness for C7 on an empty file system (no snapshot exists). -/
theorem persistence_missing_spec_witness :
    lookupA ([] : FileSystem) (dataFile "storage" "opp") = none ∧
    (sampleLM.save_data none (some "opp") [] = [] ∧
    sampleLM.save_data (some "storage") none [] = [] ∧
    sampleLM.save_data none none [] = [] ∧
    sampleLM.load_data none (some "opp") [] = ({ sampleLM with data := [] }, []) ∧
    sampleLM.load_data (some "storage") none [] = ({ sampleLM with data := [] }, []) ∧
    sampleLM.load_data none none [] = ({ sampleLM with data := [] }, []) ∧
    sampleLM.load_data (some "storage") (some "opp") [] = ({ sampleLM with data := [] }, [])) :=
  ⟨rfl, persistence_missing_spec sampleLM [] "storage" "opp" rfl⟩

/-- An issue knowing only the value `10`. -/
def sampleIssue8 : Issue := { weight := 1, value_weights := [("10", 1)] }

/-- A model whose single issue is `sampleIssue8`. -/
def sampleModel8 : OpponentModel :=
  { domain := [("price", ["10"])], alpha := 1 / 10, gamma := 9 / 10, offers := [],
    issues := [("price", sampleIssue8)], q_table := [] }

/-- Claim C8 (code divergence): a bid value absent from the issue's
value-weights table makes the lookup fail with a bare `KeyError` that
propagates uncaught out of `get_utility`; the code defines no
`MissingValueError` and catches nothing. -/
theorem get_utility_unknown_value_raises :
    Issue.get_utility sampleIssue8 (some "99") = .error .keyError ∧
    OpponentModel.get_utility sampleModel8 (some [("price", "99")]) = .error .keyError := by
  constructor <;> rfl

theorem lookupA_mem {α β : Type} [DecidableEq α] (l : List (α × β)) (k : α) (w : β)
    (h : lookupA l k = some w) : (k, w) ∈ l := by
  induction l with
  | nil => cases h
  | cons p rest ih =>
    obtain ⟨k', v'⟩ := p
    by_cases hk : k' = k
    · subst hk
      simp only [lookupA, eq_self_iff_true, if_true, Option.some.injEq] at h
      subst h
      exact List.mem_cons_self _ _
    · simp only [lookupA, if_neg hk] at h
      exact List.mem_cons_of_mem _ (ih h)

/-- Every value weight in the issue list is exactly 1. -/
def vwOne (issues : List (IssueName × Issue)) : Prop :=
  ∀ p ∈ issues, ∀ q ∈ p.2.value_weights, q.2 = 1

/-- Every value weight of every issue of the model is exactly 1. -/
def allValueWeightsOne (m : OpponentModel) : Prop := vwOne m.issues

theorem maxValWeight_const_one (iss : Issue) (hne : iss.value_weights ≠ [])
    (h : ∀ q ∈ iss.value_weights, q.2 = 1) : maxValWeight iss = some 1 := by
  obtain ⟨q0, qs, hL⟩ := List.exists_cons_of_ne_nil hne
  unfold maxValWeight
  rw [hL]
  show some ((qs.map Prod.snd).foldl max q0.2) = some 1
  have h0 : q0.2 = 1 := h q0 (by rw [hL]; exact List.mem_cons_self _ _)
  rw [h0, foldl_max_const]
  intro y hy
  rw [List.mem_map] at hy
  obtain ⟨q, hq, rfl⟩ := hy
  exact h q (by rw [hL]; exact List.mem_cons_of_mem _ hq)

theorem update_issue_weights_preserves_vw (m : OpponentModel) (t : ℚ)
    (h : allValueWeightsOne m) : allValueWeightsOne (m.update_issue_weights t) := by
  unfold OpponentModel.update_issue_weights
  by_cases hlen : m.offers.length < 2
  · rw [if_pos hlen]; exact h
  · rw [if_neg hlen]
    rcases hrev : m.offers.reverse with _ | ⟨b1, tl⟩
    · exact h
    · rcases tl with _ | ⟨b0, rest⟩
      · exact h
      · intro p' hp' q hq
        have hp2 : p' ∈ m.issues.map (fun p =>
            if getValue b0 p.1 = getValue b1 p.1 then
              (p.1, { p.2 with weight := p.2.weight + m.alpha * (1 - t * 3) })
            else p) := hp'
        rw [List.mem_map] at hp2
        obtain ⟨p, hp, rfl⟩ := hp2
        by_cases hc : getValue b0 p.1 = getValue b1 p.1
        · rw [if_pos hc] at hq
          exact h p hp q hq
        · rw [if_neg hc] at hq
          exact h p hp q hq

theorem q_learning_update_preserves_issues (m : OpponentModel) (prev curr : Bid)
    (r lr df : ℚ) (m' : OpponentModel)
    (h : m.q_learning_update prev curr r lr df = .ok m') :
    m'.issues = m.issues := by
  simp only [OpponentModel.q_learning_update] at h
  split at h
  · cases h
  · split at h
    · cases h
    · cases h
      rfl

theorem scaleAllIssues_preserves_one (issues : List (IssueName × Issue)) :
    ∀ out, vwOne issues → scaleAllIssues issues = .ok out → vwOne out := by
  induction issues with
  | nil =>
    intro out h hok p hp
    cases hok
    cases hp
  | cons p rest ih =>
    intro out h hok
    unfold scaleAllIssues at hok
    split at hok
    · cases hok
    · next iss2 hs =>
      split at hok
      · cases hok
      · next rest2 hr =>
        cases hok
        intro p' hp' q hq
        rcases List.mem_cons.mp hp' with rfl | hmem
        · unfold Issue.scaleValues at hs
          split at hs
          · cases hs
          · next mv hmv =>
            split at hs
            · cases hs
            · cases hs
              have hq2 : q ∈ p.2.value_weights.map (fun q0 => (q0.1, q0.2 / mv)) := hq
              rw [List.mem_map] at hq2
              obtain ⟨q0, hq0, rfl⟩ := hq2
              have h1 : q0.2 = 1 := h p (List.mem_cons_self p rest) q0 hq0
              have hmv2 : maxList (p.2.value_weights.map Prod.snd) = some mv := hmv
              have hmem2 := (maxList_spec hmv2).1
              rw [List.mem_map] at hmem2
              obtain ⟨q1, hq1, hsnd⟩ := hmem2
              have hmv1 : mv = 1 := by
                rw [← hsnd]
                exact h p (List.mem_cons_self p rest) q1 hq1
              show q0.2 / mv = 1
              rw [h1, hmv1]
              norm_num
        · exact ih rest2 (fun r2 hr2 q2 hq2 => h r2 (List.mem_cons_of_mem p hr2) q2 hq2)
            hr p' hmem q hq

theorem normalize_preserves_vw (m m' : OpponentModel)
    (h : allValueWeightsOne m) (hok : m.normalize = .ok m') :
    allValueWeightsOne m' := by
  unfold OpponentModel.normalize at hok
  split at hok
  · cases hok
  · next out hs =>
    split at hok
    · next hE =>
      cases hok
      rcases hI : m.issues with _ | ⟨a, l⟩
      · rw [hI] at hs
        cases hs
        intro p hp q hq
        cases hp
      · rw [hI] at hE
        cases hE
    · split at hok
      · cases hok
      · cases hok
        have hall := scaleAllIssues_preserves_one m.issues out h hs
        intro p' hp' q hq
        have hp2 : p' ∈ out.map (fun p => (p.1,
            { p.2 with weight := p.2.weight / totalWeight m.issues })) := hp'
        rw [List.mem_map] at hp2
        obtain ⟨p, hp, rfl⟩ := hp2
        exact hall p hp q hq

theorem maxValWeight_init (vs : List Value) (hne : vs ≠ []) :
    maxValWeight (Issue.init vs) = some epsWeight := by
  obtain ⟨v, vs2, rfl⟩ := List.exists_cons_of_ne_nil hne
  show some (((vs2.map (fun v2 => (v2, epsWeight))).map Prod.snd).foldl max epsWeight)
    = some epsWeight
  rw [foldl_max_const]
  intro y hy
  rw [List.map_map, List.mem_map] at hy
  obtain ⟨z, hz, rfl⟩ := hy
  rfl

theorem sum_map_one {α : Type} (l : List α) :
    (l.map (fun _ => (1 : ℚ))).sum = l.length := by
  induction l with
  | nil => simp
  | cons a as ih => simp [ih, add_comm]

theorem epsWeight_ne_zero : epsWeight ≠ 0 := by norm_num [epsWeight]

/-- The constructor seeds every value weight with epsilon and
normalizes, leaving every value weight exactly 1. -/
theorem init_all_one (domain : NegoDomain) (alpha gamma : ℚ)
    (hvals : ∀ p ∈ domain, p.2 ≠ []) :
    ∃ m, OpponentModel.init domain alpha gamma = .ok m ∧ allValueWeightsOne m := by
  rcases domain with _ | ⟨d, ds⟩
  · refine ⟨_, rfl, ?_⟩
    intro p hp
    cases hp
  · have hmax : ∀ p ∈ (d :: ds).map (fun p => (p.1, Issue.init p.2)),
        ∃ mv, maxValWeight p.2 = some mv ∧ mv ≠ 0 := by
      intro p hp
      rw [List.mem_map] at hp
      obtain ⟨p0, hp0, rfl⟩ := hp
      exact ⟨epsWeight, maxValWeight_init p0.2 (hvals p0 hp0), epsWeight_ne_zero⟩
    have hne : (d :: ds).map (fun p => (p.1, Issue.init p.2)) ≠ [] := by simp
    have htotval : totalWeight ((d :: ds).map (fun p => (p.1, Issue.init p.2)))
        = ((d :: ds).length : ℚ) := by
      unfold totalWeight
      rw [List.map_map]
      show ((d :: ds).map (fun _ => (1 : ℚ))).sum = ((d :: ds).length : ℚ)
      rw [sum_map_one]
    have htot : totalWeight ((d :: ds).map (fun p => (p.1, Issue.init p.2))) ≠ 0 := by
      rw [htotval]
      rw [List.length_cons]
      exact_mod_cast Nat.succ_ne_zero ds.length
    have hnorm := normalize_ok
      { domain := d :: ds, alpha := alpha, gamma := gamma, offers := [],
        issues := ((d :: ds).map (fun p => (p.1, Issue.init p.2))), q_table := [] }
      hne hmax htot
    refine ⟨_, hnorm, ?_⟩
    intro p' hp' q hq
    have hp2 : p' ∈ ((d :: ds).map (fun p => (p.1, Issue.init p.2))).map (fun p => (p.1,
        { weight := p.2.weight / totalWeight ((d :: ds).map (fun p => (p.1, Issue.init p.2))),
          value_weights := (p.2.value_weights.map
            (fun q0 => (q0.1, q0.2 / (maxValWeight p.2).getD 0))) })) := hp'
    rw [List.map_map, List.mem_map] at hp2
    obtain ⟨p0, hp0, rfl⟩ := hp2
    have hq2 : q ∈ (Issue.init p0.2).value_weights.map
        (fun q0 => (q0.1, q0.2 / (maxValWeight (Issue.init p0.2)).getD 0)) := hq
    rw [maxValWeight_init p0.2 (hvals p0 hp0)] at hq2
    rw [List.mem_map] at hq2
    obtain ⟨q0, hq0, rfl⟩ := hq2
    have hq02 : q0.2 = epsWeight := by
      have : q0 ∈ p0.2.map (fun v => (v, epsWeight)) := hq0
      rw [List.mem_map] at this
      obtain ⟨v0, hv0, rfl⟩ := this
      rfl
    show q0.2 / (some epsWeight).getD 0 = 1
    rw [hq02]
    exact div_self epsWeight_ne_zero

theorem map_congr_sum (l : List (IssueName × Issue)) (f g : IssueName × Issue → ℚ)
    (h : ∀ p ∈ l, f p = g p) : (l.map f).sum = (l.map g).sum := by
  induction l with
  | nil => rfl
  | cons p rest ih =>
    simp [h p (List.mem_cons_self p rest), ih (fun q hq => h q (List.mem_cons_of_mem p hq))]

/-- When every value weight is 1, the estimated utility of a fully
assigned bid collapses to the sum of the issue weights. -/
theorem get_utility_all_one (m : OpponentModel) (b : Bid)
    (h1 : allValueWeightsOne m)
    (h : ∀ p ∈ m.issues, ∃ v, getValue b p.1 = some v ∧ (lookupA p.2.value_weights v).isSome) :
    m.get_utility (some b) = .ok (totalWeight m.issues) := by
  have h2 : ∀ p ∈ m.issues, ∃ v w, getValue b p.1 = some v ∧
      lookupA p.2.value_weights v = some w := by
    intro p hp
    obtain ⟨v, hv, hks⟩ := h p hp
    obtain ⟨w, hw⟩ := Option.isSome_iff_exists.mp hks
    exact ⟨v, w, hv, hw⟩
  show getUtilityAux b m.issues = .ok (totalWeight m.issues)
  rw [getUtilityAux_ok b m.issues h2]
  congr 1
  have h4 : ∀ p ∈ m.issues, p.2.weight * weightOf p.2 (getValue b p.1) = p.2.weight := by
    intro p hp
    obtain ⟨v, w, hv, hw⟩ := h2 p hp
    have hw1 : w = 1 := h1 p hp (v, w) (lookupA_mem _ _ _ hw)
    rw [hv]
    show p.2.weight * (lookupA p.2.value_weights v).getD 0 = p.2.weight
    rw [hw]
    show p.2.weight * w = p.2.weight
    rw [hw1, mul_one]
  exact map_congr_sum m.issues _ _ h4

/-- Claim C9: every value weight is exactly 1 from the end of the
constructor on: the constructor (epsilon seeding then `normalize`)
establishes it, `update_issue_weights`, `q_learning_update`, `normalize`
and `update` each preserve it (and `get_utility` is pure by its type, a
function of the state returning only a value), and under it the utility
of a bid assigning a declared value to every issue is the sum of the
current issue weights. -/
theorem value_weights_unit_invariant :
    (∀ (domain : NegoDomain) (alpha gamma : ℚ), (∀ p ∈ domain, p.2 ≠ []) →
      ∃ m, OpponentModel.init domain alpha gamma = .ok m ∧ allValueWeightsOne m) ∧
    (∀ (m : OpponentModel) (t : ℚ), allValueWeightsOne m →
      allValueWeightsOne (m.update_issue_weights t)) ∧
    (∀ (m : OpponentModel) (prev curr : Bid) (r lr df : ℚ) (m' : OpponentModel),
      allValueWeightsOne m → m.q_learning_update prev curr r lr df = .ok m' →
      allValueWeightsOne m') ∧
    (∀ (m m' : OpponentModel), allValueWeightsOne m → m.normalize = .ok m' →
      allValueWeightsOne m') ∧
    (∀ (m : OpponentModel) (prev curr : Option Bid) (r lr df t : ℚ) (m' : OpponentModel),
      allValueWeightsOne m → m.update prev curr r lr df t = .ok m' →
      allValueWeightsOne m') ∧
    (∀ (m : OpponentModel) (b : Bid), allValueWeightsOne m →
      (∀ p ∈ m.issues, ∃ v, getValue b p.1 = some v ∧ (lookupA p.2.value_weights v).isSome) →
      m.get_utility (some b) = .ok (totalWeight m.issues)) := by
  refine ⟨init_all_one, update_issue_weights_preserves_vw, ?_, normalize_preserves_vw,
    ?_, get_utility_all_one⟩
  · intro m prev curr r lr df m' h hok
    have hiss := q_learning_update_preserves_issues m prev curr r lr df m' hok
    intro p hp q hq
    rw [hiss] at hp
    exact h p hp q hq
  · intro m prev curr r lr df t m' h hok
    cases prev with
    | none =>
      cases curr with
      | none => cases hok; exact h
      | some cb => cases hok; exact h
    | some pb =>
      cases curr with
      | none => cases hok; exact h
      | some cb =>
        have h1 : allValueWeightsOne ({ m with offers := m.offers ++ [cb] } : OpponentModel) := h
        have h2 := update_issue_weights_preserves_vw _ t h1
        have hok2 : (OpponentModel.update_issue_weights
            { m with offers := m.offers ++ [cb] } t).q_learning_update pb cb r lr df
            = .ok m' := hok
        have hiss := q_learning_update_preserves_issues _ pb cb r lr df m' hok2
        intro p hp q hq
        rw [hiss] at hp
        exact h2 p hp q hq

/-- Witness for C9: the constructor over the spec §8 scenario domain
succeeds and every value weight comes out exactly 1. -/
theorem value_weights_unit_invariant_witness :
    (∀ p ∈ sampleDomain, p.2 ≠ []) ∧
    (∃ m, OpponentModel.init sampleDomain (1 / 10) (9 / 10) = .ok m ∧
      allValueWeightsOne m) := by
  have hvals : ∀ p ∈ sampleDomain, p.2 ≠ [] := by
    intro p hp
    simp only [sampleDomain, List.mem_cons, List.not_mem_nil, or_false] at hp
    rcases hp with rfl | rfl <;> simp
  exact ⟨hvals, value_weights_unit_invariant.1 sampleDomain (1 / 10) (9 / 10) hvals⟩

end ADAgent
